import Mathlib

/-!
Verification development for the tree-sitter-lsp-experiment repository.

The file shallowly embeds the parts of the program that the specification
talks about:

* `src/parser.rs` — the syntax walker (`get_calls` / `CallIterator::next`)
  and the anchor-narrowing function `find_goto_definition_node`;
* `src/languages/swift.rs` and `src/languages/rust.rs` — the per-language
  `find_call` narrowing functions;
* `src/lsp.rs` — wire framing (`request_string`, `LspServer::read_response`,
  `LspServer::read_response_with_id`), the request-id counter
  (`LspServer::send_request`) and process teardown (`LspServer::stop`).

Tree-sitter trees are modelled as rose trees carrying a node kind and a byte
range; the tree-sitter `TreeCursor` is modelled as a zipper.  Character lists
model byte sequences (all theorems only ever instantiate them with ASCII
data, where one char is one byte).
-/

namespace TSLE

/-- A tree-sitter syntax node: kind string, byte range, ordered children.
Models `tree_sitter::Node` as used by `src/parser.rs` (only `kind`,
`start_byte`, `end_byte` and child traversal are consumed by the code
under verification). -/
inductive STree where
  | node (kind : String) (startByte endByte : Nat) (children : List STree)

namespace STree

def kind : STree → String
  | node k _ _ _ => k

def startByte : STree → Nat
  | node _ s _ _ => s

def endByte : STree → Nat
  | node _ _ e _ => e

def children : STree → List STree
  | node _ _ _ cs => cs

/-- Number of nodes in the tree. -/
def size : STree → Nat
  | node _ _ _ cs => 1 + sizeList cs
where sizeList : List STree → Nat
  | [] => 0
  | c :: cs => size c + sizeList cs

/-- Pre-order (depth-first, parent before children, left-to-right siblings)
listing of all nodes of the tree. -/
def preorder : STree → List STree
  | node k s e cs => node k s e cs :: preorderList cs
where preorderList : List STree → List STree
  | [] => []
  | c :: cs => preorder c ++ preorderList cs

theorem size_eq_length_preorder (t : STree) : t.size = t.preorder.length := by
  have main : ∀ t : STree, t.size = t.preorder.length := by
    intro t
    induction t using STree.rec (motive_2 := fun cs =>
        STree.size.sizeList cs = (STree.preorder.preorderList cs).length) with
    | node k s e cs ih =>
        simp [STree.size, STree.preorder, ih]
        omega
    | nil => simp [STree.size.sizeList, STree.preorder.preorderList]
    | cons c cs ihc ihcs =>
        simp [STree.size.sizeList, STree.preorder.preorderList, ihc, ihcs]
  exact main t

theorem self_mem_preorder (t : STree) : t ∈ t.preorder := by
  cases t with
  | node k s e cs => simp [preorder]

theorem preorder_children_sublist :
    ∀ (cs : List STree) (c : STree), c ∈ cs → c.preorder ⊆ preorder.preorderList cs := by
  intro cs
  induction cs with
  | nil => intro c hc; cases hc
  | cons d ds ih =>
      intro c hc
      rcases List.mem_cons.mp hc with h | h
      · subst h
        intro x hx
        simp [preorder.preorderList]
        exact Or.inl hx
      · intro x hx
        simp [preorder.preorderList]
        exact Or.inr (ih c h hx)

/-- Membership in `preorder` is closed under taking children. -/
theorem mem_preorder_of_child :
    ∀ (t s c : STree), s ∈ t.preorder → c ∈ s.children → c ∈ t.preorder := by
  have main : ∀ t : STree, ∀ s c : STree, s ∈ t.preorder → c ∈ s.children →
      c ∈ t.preorder := by
    intro t
    induction t using STree.rec (motive_2 := fun cs => ∀ s c : STree,
        s ∈ preorder.preorderList cs → c ∈ s.children → c ∈ preorder.preorderList cs) with
    | node k se ee cs ih =>
        intro s c hs hc
        simp only [preorder, List.mem_cons] at hs
        rcases hs with h | h
        · subst h
          simp only [children] at hc
          simp only [preorder, List.mem_cons]
          exact Or.inr (preorder_children_sublist cs c hc (self_mem_preorder c))
        · simp only [preorder, List.mem_cons]
          exact Or.inr (ih s c h hc)
    | nil =>
        rename_i s c hs hc
        simp [preorder.preorderList] at hs
    | cons d ds ihd ihds =>
        rename_i s c hs hc
        simp only [preorder.preorderList, List.mem_append] at hs ⊢
        rcases hs with h | h
        · exact Or.inl (ihd s c h hc)
        · exact Or.inr (ihds s c h hc)
  exact main

/-- Alias for the nested size function on child lists. -/
def sizeL (l : List STree) : Nat := STree.size.sizeList l

/-- Alias for the nested pre-order function on child lists. -/
def preL (l : List STree) : List STree := STree.preorder.preorderList l

theorem size_pos (t : STree) : 1 ≤ t.size := by
  cases t with
  | node k s e cs => simp [STree.size]

theorem sizeL_cons (c : STree) (cs : List STree) :
    sizeL (c :: cs) = c.size + sizeL cs := rfl

theorem preL_cons (c : STree) (cs : List STree) :
    preL (c :: cs) = c.preorder ++ preL cs := rfl

end STree

/-- One stack entry of the tree cursor: the data of an ancestor node together
with the already-visited left siblings (nearest first) and the still-pending
right siblings (in order) of the focused subtree.  Models the position state
of a `tree_sitter::TreeCursor`. -/
structure Frame where
  kind : String
  startByte : Nat
  endByte : Nat
  left : List STree
  right : List STree

/-- Rebuild the parent node from a frame and the focused subtree. -/
def Frame.close (f : Frame) (focus : STree) : STree :=
  .node f.kind f.startByte f.endByte (f.left.reverse ++ focus :: f.right)

/-- A `tree_sitter::TreeCursor`: the focused subtree plus the ancestor stack. -/
structure Cursor where
  focus : STree
  frames : List Frame

/-- `TreeCursor::goto_first_child`. -/
def gotoFirstChild : Cursor → Option Cursor
  | ⟨.node _ _ _ [], _⟩ => none
  | ⟨.node k s e (x :: xs), fs⟩ => some ⟨x, ⟨k, s, e, [], xs⟩ :: fs⟩

/-- `TreeCursor::goto_next_sibling`. -/
def gotoNextSibling : Cursor → Option Cursor
  | ⟨_, []⟩ => none
  | ⟨foc, f :: fs⟩ =>
      match f.right with
      | [] => none
      | y :: ys => some ⟨y, ⟨f.kind, f.startByte, f.endByte, foc :: f.left, ys⟩ :: fs⟩

/-- The advancing loop of `CallIterator::next`
(`while !goto_next_sibling { if !goto_parent { … } }`): repeatedly move to the
parent until a next sibling exists; `none` when the climb falls off the root. -/
def climbNext (foc : STree) : List Frame → Option Cursor
  | [] => none
  | f :: fs =>
      match f.right with
      | y :: ys => some ⟨y, ⟨f.kind, f.startByte, f.endByte, foc :: f.left, ys⟩ :: fs⟩
      | [] => climbNext (f.close foc) fs

/-- One pre-order step of the cursor: first child if any, else the climb to
the next sibling of the nearest ancestor that has one. -/
def advance (c : Cursor) : Option Cursor :=
  match gotoFirstChild c with
  | some c' => some c'
  | none => climbNext c.focus c.frames

/-- Rebuild the full tree from a cursor (where `goto_parent` leaves the
cursor after climbing all the way up). -/
def rootTree (foc : STree) : List Frame → STree
  | [] => foc
  | f :: fs => rootTree (f.close foc) fs

/-- `CallNode` from `src/parser.rs`: the call node together with the node on
which goto-definition should be performed. -/
structure CallNode where
  call_node : STree
  goto_definition_node : STree

/-- The `for suffix_child in nav_child.children(..)` loop of
`find_goto_definition_node` (`src/parser.rs`): first `simple_identifier`
child of a `navigation_suffix` node. -/
def suffixSearch (navChild : STree) : Option STree :=
  navChild.children.find? (fun sc => sc.kind == "simple_identifier")

/-- The `for nav_child in child.children(..)` loop of
`find_goto_definition_node`: scan the children of a `navigation_expression`
for a `navigation_suffix` holding a `simple_identifier`; on an unsuccessful
suffix the scan continues. -/
def navSearch (child : STree) : Option STree :=
  navFirst child.children
where navFirst : List STree → Option STree
  | [] => none
  | nc :: ncs =>
      if nc.kind == "navigation_suffix" then
        match suffixSearch nc with
        | some r => some r
        | none => navFirst ncs
      else navFirst ncs

/-- The `for child in call_node.children(..)` loop of
`find_goto_definition_node`: a `navigation_expression` child is searched for
the nested method name, a direct `simple_identifier`/`identifier` child is
returned as the function name; otherwise the loop continues. -/
def callChildSearch (callNode : STree) : Option STree :=
  loop callNode.children
where loop : List STree → Option STree
  | [] => none
  | child :: rest =>
      if child.kind == "navigation_expression" then
        match navSearch child with
        | some r => some r
        | none => loop rest
      else if child.kind == "simple_identifier" || child.kind == "identifier" then
        some child
      else loop rest

/-- `find_goto_definition_node` from `src/parser.rs`: for a
`call_expression` node, the nested/direct callee name node if one is found,
otherwise (and for every other kind) the call node itself. -/
def find_goto_definition_node (callNode : STree) : STree :=
  if callNode.kind == "call_expression" then
    match callChildSearch callNode with
    | some r => r
    | none => callNode
  else callNode

/-- The state of `CallIterator` from `src/parser.rs`: the cursor plus the
`visited_root` flag. -/
structure WalkerState where
  cursor : Cursor
  visitedRoot : Bool

/-- Remaining weight of the pending right siblings on the frame stack. -/
def framesWeight : List Frame → Nat
  | [] => 0
  | f :: fs => STree.sizeL f.right + framesWeight fs

/-- Number of nodes at or after the cursor in pre-order. -/
def remaining (c : Cursor) : Nat := c.focus.size + framesWeight c.frames

theorem gotoFirstChild_remaining {c c' : Cursor} (h : gotoFirstChild c = some c') :
    remaining c' < remaining c := by
  rcases c with ⟨⟨k, s, e, cs⟩, fs⟩
  cases cs with
  | nil => simp [gotoFirstChild] at h
  | cons x xs =>
      simp only [gotoFirstChild, Option.some.injEq] at h
      subst h
      simp [remaining, framesWeight, STree.size, STree.sizeL, STree.size.sizeList]
      omega

theorem climbNext_remaining :
    ∀ (fs : List Frame) (foc : STree) (c' : Cursor), climbNext foc fs = some c' →
      remaining c' ≤ framesWeight fs := by
  intro fs
  induction fs with
  | nil => intro foc c' h; simp [climbNext] at h
  | cons f fs ih =>
      intro foc c' h
      rcases hr : f.right with _ | ⟨y, ys⟩
      · rw [climbNext, hr] at h
        have := ih (f.close foc) c' h
        simp [framesWeight, hr, STree.sizeL, STree.size.sizeList]
        exact this
      · rw [climbNext, hr] at h
        simp only [Option.some.injEq] at h
        subst h
        simp [remaining, framesWeight, hr, STree.sizeL, STree.size.sizeList]
        omega

theorem advance_remaining {c c' : Cursor} (h : advance c = some c') :
    remaining c' < remaining c := by
  rw [advance] at h
  rcases hg : gotoFirstChild c with _ | c''
  · rw [hg] at h
    have h2 := climbNext_remaining c.frames c.focus c' h
    have h3 := STree.size_pos c.focus
    simp only [remaining] at h2 ⊢
    omega
  · rw [hg] at h
    simp only [Option.some.injEq] at h
    subst h
    exact gotoFirstChild_remaining hg

/-- `CallIterator::next` from `src/parser.rs`.  The root node is only tested
against the call-kind set once `visited_root` holds; a matched node is
emitted together with `find_goto_definition_node` and the cursor is advanced
past it in pre-order (parked back at the root when the tree is exhausted
during that advance, exactly as the source's `goto_parent` failure path
leaves the cursor). -/
def callIterNext (kinds : List String) : WalkerState → Option (CallNode × WalkerState)
  | ⟨c, vr⟩ =>
    if vr && kinds.contains c.focus.kind then
      let site : CallNode := ⟨c.focus, find_goto_definition_node c.focus⟩
      match advance c with
      | some c' => some (site, ⟨c', true⟩)
      | none => some (site, ⟨⟨rootTree c.focus c.frames, []⟩, true⟩)
    else
      match h : advance c with
      | some c' => callIterNext kinds ⟨c', true⟩
      | none => none
termination_by s => remaining s.cursor
decreasing_by exact advance_remaining h

/-- Collect the yields of the iterator; `fuel` bounds the number of yields
(the source iterator is consumed lazily and, on the degenerate trees
excluded by the theorems below, never runs dry; every theorem below supplies
fuel that provably covers all yields). -/
def collectCalls (kinds : List String) : Nat → WalkerState → List CallNode
  | 0, _ => []
  | fuel + 1, s =>
      match callIterNext kinds s with
      | none => []
      | some (site, s') => site :: collectCalls kinds fuel s'

/-- The call-kind list of `get_calls` (`CALL_NODE_KINDS` in `src/parser.rs`). -/
def CALL_NODE_KINDS : List String :=
  ["call_expression", "macro_invocation", "call", "call_expression",
   "new_expression", "call_expression", "call_expression",
   "function_call_expression"]

/-- The walker with an explicit call-kind set (`CallIterator` is created
with its `call_kinds` field; the cursor starts at the root with
`visited_root = false`). -/
def getCallsWith (kinds : List String) (t : STree) : List CallNode :=
  collectCalls kinds t.size ⟨⟨t, []⟩, false⟩

/-- `get_calls` from `src/parser.rs`. -/
def get_calls (t : STree) : List CallNode := getCallsWith CALL_NODE_KINDS t

/-- Specification-side description of the walker's contract: one Call Site
per pre-order node whose kind is in the call-kind set, in pre-order
position, with the anchor produced by `find_goto_definition_node`. -/
def preorderCallSites (kinds : List String) (t : STree) : List CallNode :=
  (t.preorder.filter (fun n => kinds.contains n.kind)).map
    (fun n => ⟨n, find_goto_definition_node n⟩)

/-- Pending pre-order nodes stored on the frame stack. -/
def remFrames : List Frame → List STree
  | [] => []
  | f :: fs => STree.preL f.right ++ remFrames fs

/-- The nodes at or after the cursor, in pre-order. -/
def remSeq (c : Cursor) : List STree := c.focus.preorder ++ remFrames c.frames

theorem remSeq_cons (c : Cursor) :
    remSeq c = c.focus :: (STree.preL c.focus.children ++ remFrames c.frames) := by
  rcases c with ⟨⟨k, s, e, cs⟩, fs⟩
  simp [remSeq, STree.preorder, STree.preL, STree.children]

theorem climbNext_remSeq_some :
    ∀ (fs : List Frame) (foc : STree) (c' : Cursor), climbNext foc fs = some c' →
      remFrames fs = remSeq c' := by
  intro fs
  induction fs with
  | nil => intro foc c' h; simp [climbNext] at h
  | cons f fs ih =>
      intro foc c' h
      rcases hr : f.right with _ | ⟨y, ys⟩
      · rw [climbNext, hr] at h
        rw [remFrames, hr]
        simpa [STree.preL, STree.preorder.preorderList] using ih (f.close foc) c' h
      · rw [climbNext, hr] at h
        simp only [Option.some.injEq] at h
        subst h
        simp [remFrames, hr, remSeq, STree.preL, STree.preorder.preorderList]

theorem climbNext_remSeq_none :
    ∀ (fs : List Frame) (foc : STree), climbNext foc fs = none → remFrames fs = [] := by
  intro fs
  induction fs with
  | nil => intro foc _; rfl
  | cons f fs ih =>
      intro foc h
      rcases hr : f.right with _ | ⟨y, ys⟩
      · rw [climbNext, hr] at h
        rw [remFrames, hr]
        simpa [STree.preL, STree.preorder.preorderList] using ih (f.close foc) h
      · rw [climbNext, hr] at h
        simp at h

theorem advance_remSeq_some {c c' : Cursor} (h : advance c = some c') :
    remSeq c = c.focus :: remSeq c' := by
  rw [advance] at h
  rcases c with ⟨⟨k, s, e, cs⟩, fs⟩
  cases cs with
  | nil =>
      simp only [gotoFirstChild] at h
      rw [remSeq_cons]
      have := climbNext_remSeq_some fs (.node k s e []) c' h
      simp only [STree.children, STree.preL, STree.preorder.preorderList]
      rw [← this]
      rfl
  | cons x xs =>
      simp only [gotoFirstChild, Option.some.injEq] at h
      subst h
      rw [remSeq_cons]
      simp [remSeq, remFrames, STree.children, STree.preL, STree.preorder.preorderList]

theorem advance_remSeq_none {c : Cursor} (h : advance c = none) :
    remSeq c = [c.focus] := by
  rw [advance] at h
  rcases c with ⟨⟨k, s, e, cs⟩, fs⟩
  cases cs with
  | nil =>
      simp only [gotoFirstChild] at h
      have := climbNext_remSeq_none fs (.node k s e []) h
      rw [remSeq_cons]
      simp [STree.children, STree.preL, STree.preorder.preorderList, this]
  | cons x xs => simp [gotoFirstChild] at h

/-- If the focused node has a child, the advance is `goto_first_child`. -/
theorem advance_isSome_of_children {c : Cursor} (h : c.focus.children ≠ []) :
    ∃ c', advance c = some c' := by
  rcases c with ⟨⟨k, s, e, cs⟩, fs⟩
  cases cs with
  | nil => simp [STree.children] at h
  | cons x xs =>
      refine ⟨⟨x, ⟨k, s, e, [], xs⟩ :: fs⟩, ?_⟩
      simp [advance, gotoFirstChild]

/-- Core characterization of the iterator run: from a cursor with
`visited_root` set, the collected yields are exactly the matching remaining
pre-order nodes, provided every matching remaining node has a child (true of
every parsed tree: call nodes always carry at least a callee child) and the
fuel covers the remaining nodes. -/
theorem collectCalls_eq (kinds : List String) :
    ∀ (n : Nat) (c : Cursor) (fuel : Nat),
      (remSeq c).length = n →
      (∀ m ∈ remSeq c, kinds.contains m.kind = true → m.children ≠ []) →
      n ≤ fuel →
      collectCalls kinds fuel ⟨c, true⟩ =
        ((remSeq c).filter (fun m => kinds.contains m.kind)).map
          (fun m => ⟨m, find_goto_definition_node m⟩) := by
  intro n
  induction n using Nat.strongRecOn with
  | ind n ih =>
      intro c fuel hlen hch hfuel
      have hne : remSeq c = c.focus :: (STree.preL c.focus.children ++ remFrames c.frames) :=
        remSeq_cons c
      have hpos : 1 ≤ n := by rw [← hlen, hne]; simp
      rcases fuel with _ | fu
      · omega
      rw [collectCalls]
      by_cases hk : kinds.contains c.focus.kind = true
      · -- matched node: it has a child, so the advance descends into it
        have hcne : c.focus.children ≠ [] := by
          apply hch c.focus _ hk
          rw [hne]; simp
        obtain ⟨c', hadv⟩ := advance_isSome_of_children hcne
        have hseq := advance_remSeq_some hadv
        rw [callIterNext]
        simp only [hk, Bool.and_self, if_pos]
        rw [hadv]
        have ihlen : (remSeq c').length = n - 1 := by
          rw [hseq] at hlen; simp at hlen; omega
        have := ih (n - 1) (by omega) c' fu ihlen
          (fun m hm hmk => hch m (by rw [hseq]; exact List.mem_cons_of_mem _ hm) hmk)
          (by omega)
        simp only [this]
        rw [hseq]
        have hk' : c.focus.kind ∈ kinds := by simpa using hk
        simp [List.filter_cons, hk']
      · -- unmatched node: the iterator silently steps to the next position
        have hk' : c.focus.kind ∉ kinds := by simpa using hk
        rcases hadv : advance c with _ | c'
        · have hseq := advance_remSeq_none hadv
          have hstep : callIterNext kinds ⟨c, true⟩ = none := by
            rw [callIterNext, hadv]
            simp [hk']
          rw [hstep, hseq]
          simp [List.filter_cons, hk']
        · have hseq := advance_remSeq_some hadv
          have hstep : callIterNext kinds ⟨c, true⟩ = callIterNext kinds ⟨c', true⟩ := by
            rw [callIterNext, hadv]
            simp [hk']
          rw [hstep]
          have ihlen : (remSeq c').length = n - 1 := by
            rw [hseq] at hlen; simp at hlen; omega
          have hrec := ih (n - 1) (by omega) c' (fu + 1) ihlen
            (fun m hm hmk => hch m (by rw [hseq]; exact List.mem_cons_of_mem _ hm) hmk)
            (by omega)
          rw [collectCalls] at hrec
          rw [hrec, hseq]
          simp [List.filter_cons, hk']


/-- The walker equals the pre-order filter of the tree, for every tree whose
root kind is not a call kind and whose call-kind nodes all have children
(both hold of every tree produced by parsing: roots are file/module nodes
and call nodes always carry a callee child). -/
theorem getCallsWith_eq (kinds : List String) (t : STree)
    (hroot : ¬ kinds.contains t.kind = true)
    (hch : ∀ m ∈ t.preorder, kinds.contains m.kind = true → m.children ≠ []) :
    getCallsWith kinds t = preorderCallSites kinds t := by
  have hroot' : t.kind ∉ kinds := by simpa using hroot
  rcases t with ⟨k, s, e, cs⟩
  cases cs with
  | nil =>
      rw [getCallsWith]
      have hsz : (STree.node k s e []).size = 0 + 1 := by
        simp [STree.size, STree.size.sizeList]
      rw [hsz, collectCalls]
      have hadv : advance ⟨STree.node k s e [], []⟩ = none := by
        simp [advance, gotoFirstChild, climbNext]
      have hstep : callIterNext kinds ⟨⟨STree.node k s e [], []⟩, false⟩ = none := by
        rw [callIterNext, hadv]
        simp
      rw [hstep]
      simp [preorderCallSites, STree.preorder, STree.preorder.preorderList,
        List.filter_cons, hroot']
  | cons x xs =>
      rw [getCallsWith]
      have hsz : (STree.node k s e (x :: xs)).size = STree.sizeL (x :: xs) + 1 := by
        simp [STree.size, STree.sizeL]
        omega
      rw [hsz, collectCalls]
      have hadv : advance ⟨STree.node k s e (x :: xs), []⟩ =
          some ⟨x, [⟨k, s, e, [], xs⟩]⟩ := by
        simp [advance, gotoFirstChild]
      have hstep : callIterNext kinds ⟨⟨STree.node k s e (x :: xs), []⟩, false⟩ =
          callIterNext kinds ⟨⟨x, [⟨k, s, e, [], xs⟩]⟩, true⟩ := by
        rw [callIterNext, hadv]
        simp
      rw [hstep]
      have hrs : remSeq ⟨x, [⟨k, s, e, [], xs⟩]⟩ = STree.preL (x :: xs) := by
        simp [remSeq, remFrames, STree.preL, STree.preorder.preorderList]
      have hlenpre : (STree.preL (x :: xs)).length = STree.sizeL (x :: xs) := by
        have := STree.size_eq_length_preorder (STree.node k s e (x :: xs))
        simp [STree.size, STree.preorder, STree.sizeL, STree.preL] at this ⊢
        omega
      have hsub : ∀ m ∈ STree.preL (x :: xs), m ∈ (STree.node k s e (x :: xs)).preorder := by
        intro m hm
        simp only [STree.preorder, List.mem_cons]
        right
        exact hm
      have hrec := collectCalls_eq kinds (STree.sizeL (x :: xs)) ⟨x, [⟨k, s, e, [], xs⟩]⟩
        (STree.sizeL (x :: xs) + 1)
        (by rw [hrs]; exact hlenpre)
        (by intro m hm hmk; exact hch m (hsub m (by rw [hrs] at hm; exact hm)) hmk)
        (by omega)
      rw [collectCalls] at hrec
      rw [hrec, hrs]
      simp only [preorderCallSites, STree.preorder]
      simp [List.filter_cons, hroot', STree.preL]

/-- Byte-range containment: `inner`'s span lies inside `outer`'s span. -/
def spanWithin (inner outer : STree) : Prop :=
  outer.startByte ≤ inner.startByte ∧ inner.endByte ≤ outer.endByte

/-- The parse-tree invariant stated in the specification's data model: every
node's byte range is contained within its parent's. -/
def RangesNested (t : STree) : Prop :=
  ∀ s ∈ t.preorder, ∀ c ∈ s.children, spanWithin c s

instance (t : STree) : Decidable (RangesNested t) := by
  unfold RangesNested spanWithin
  infer_instance

theorem spanWithin_refl (n : STree) : spanWithin n n := ⟨le_refl _, le_refl _⟩

theorem spanWithin_trans {a b c : STree} (h1 : spanWithin a b) (h2 : spanWithin b c) :
    spanWithin a c := ⟨le_trans h2.1 h1.1, le_trans h1.2 h2.2⟩

theorem mem_preL_iff {m : STree} :
    ∀ {cs : List STree}, m ∈ STree.preL cs ↔ ∃ c ∈ cs, m ∈ c.preorder := by
  intro cs
  induction cs with
  | nil => simp [STree.preL, STree.preorder.preorderList]
  | cons d ds ih =>
      rw [show STree.preL (d :: ds) = d.preorder ++ STree.preL ds from rfl]
      simp only [List.mem_append, ih, List.mem_cons]
      constructor
      · rintro (h | ⟨c, hc, hm⟩)
        · exact ⟨d, Or.inl rfl, h⟩
        · exact ⟨c, Or.inr hc, hm⟩
      · rintro ⟨c, hc | hc, hm⟩
        · subst hc; exact Or.inl hm
        · exact Or.inr ⟨c, hc, hm⟩

theorem size_le_sizeL {c : STree} :
    ∀ {cs : List STree}, c ∈ cs → c.size ≤ STree.sizeL cs := by
  intro cs
  induction cs with
  | nil => intro h; cases h
  | cons d ds ih =>
      intro h
      rw [STree.sizeL_cons]
      rcases List.mem_cons.mp h with h | h
      · subst h; omega
      · have := ih h; omega

theorem size_child_lt {c n : STree} (h : c ∈ n.children) : c.size < n.size := by
  rcases n with ⟨k, s, e, cs⟩
  simp only [STree.children] at h
  have := @size_le_sizeL c cs h
  simp only [STree.size]
  have : STree.sizeL cs = STree.size.sizeList cs := rfl
  have h2 := @size_le_sizeL c cs h
  rw [this] at h2
  omega

/-- Under the nested-ranges invariant, every pre-order descendant's span is
contained in its ancestor's span. -/
theorem spanWithin_of_mem_preorder (t : STree) (hn : RangesNested t) :
    ∀ (k : Nat) (n : STree), n.size ≤ k → n ∈ t.preorder →
      ∀ m ∈ n.preorder, spanWithin m n := by
  intro k
  induction k with
  | zero => intro n hsz; have := STree.size_pos n; omega
  | succ k ih =>
      intro n hsz hnt m hm
      rcases n with ⟨nk, ns, ne, cs⟩
      rw [STree.preorder] at hm
      rcases List.mem_cons.mp hm with h | h
      · subst h; exact spanWithin_refl _
      · rw [show STree.preorder.preorderList cs = STree.preL cs from rfl] at h
        obtain ⟨c, hc, hmc⟩ := mem_preL_iff.mp h
        have hcsz : c.size ≤ k := by
          have := @size_child_lt c (STree.node nk ns ne cs) (by simpa [STree.children])
          omega
        have h1 := ih c hcsz (STree.mem_preorder_of_child t _ c hnt (by simpa [STree.children])) m hmc
        have h2 : spanWithin c (STree.node nk ns ne cs) :=
          hn (STree.node nk ns ne cs) hnt c (by simpa [STree.children])
        exact spanWithin_trans h1 h2

theorem suffixSearch_mem {nc r : STree} (h : suffixSearch nc = some r) : r ∈ nc.children :=
  List.mem_of_find?_eq_some h

theorem navFirst_mem {r : STree} :
    ∀ (l : List STree), navSearch.navFirst l = some r → ∃ nc ∈ l, r ∈ nc.children := by
  intro l
  induction l with
  | nil => intro h; simp [navSearch.navFirst] at h
  | cons nc ncs ih =>
      intro h
      rw [navSearch.navFirst] at h
      by_cases hk : (nc.kind == "navigation_suffix") = true
      · rw [if_pos hk] at h
        rcases hs : suffixSearch nc with _ | r'
        · rw [hs] at h
          obtain ⟨x, hx, hr⟩ := ih h
          exact ⟨x, List.mem_cons_of_mem _ hx, hr⟩
        · rw [hs] at h
          simp only [Option.some.injEq] at h
          subst h
          exact ⟨nc, List.mem_cons_self _ _, suffixSearch_mem hs⟩
      · rw [if_neg hk] at h
        obtain ⟨x, hx, hr⟩ := ih h
        exact ⟨x, List.mem_cons_of_mem _ hx, hr⟩

theorem navSearch_mem {ch r : STree} (h : navSearch ch = some r) :
    ∃ nc ∈ ch.children, r ∈ nc.children := navFirst_mem ch.children h

theorem callChildSearch_loop_mem {r : STree} :
    ∀ (l : List STree), callChildSearch.loop l = some r →
      ∃ child ∈ l, r = child ∨ ∃ nc ∈ child.children, r ∈ nc.children := by
  intro l
  induction l with
  | nil => intro h; simp [callChildSearch.loop] at h
  | cons child rest ih =>
      intro h
      rw [callChildSearch.loop] at h
      by_cases hnav : (child.kind == "navigation_expression") = true
      · rw [if_pos hnav] at h
        rcases hs : navSearch child with _ | r'
        · rw [hs] at h
          obtain ⟨x, hx, hr⟩ := ih h
          exact ⟨x, List.mem_cons_of_mem _ hx, hr⟩
        · rw [hs] at h
          simp only [Option.some.injEq] at h
          subst h
          exact ⟨child, List.mem_cons_self _ _, Or.inr (navSearch_mem hs)⟩
      · rw [if_neg hnav] at h
        by_cases hid : (child.kind == "simple_identifier" || child.kind == "identifier") = true
        · rw [if_pos hid] at h
          simp only [Option.some.injEq] at h
          exact ⟨child, List.mem_cons_self _ _, Or.inl h.symm⟩
        · rw [if_neg hid] at h
          obtain ⟨x, hx, hr⟩ := ih h
          exact ⟨x, List.mem_cons_of_mem _ hx, hr⟩

/-- The narrowing function always returns the call node itself or one of its
pre-order descendants. -/
theorem find_goto_mem (n : STree) : find_goto_definition_node n ∈ n.preorder := by
  rw [find_goto_definition_node]
  by_cases hk : (n.kind == "call_expression") = true
  · rw [if_pos hk]
    rcases hs : callChildSearch n with _ | r
    · exact STree.self_mem_preorder n
    · obtain ⟨child, hchild, hr⟩ := callChildSearch_loop_mem n.children hs
      have hchild : child ∈ n.preorder :=
        STree.mem_preorder_of_child n n child (STree.self_mem_preorder n) hchild
      rcases hr with h | ⟨nc, hnc, hrc⟩
      · subst h; exact hchild
      · have hncp : nc ∈ n.preorder := STree.mem_preorder_of_child n child nc hchild hnc
        exact STree.mem_preorder_of_child n nc r hncp hrc
  · rw [if_neg hk]
    exact STree.self_mem_preorder n

/-- `SwiftLang::call_node_kinds` from `src/languages/swift.rs`. -/
def swiftCallKinds : List String := ["call_expression", "function_call_expression"]

/-- `RustLang::call_node_kinds` from `src/languages/rust.rs`. -/
def rustCallKinds : List String := ["call_expression", "macro_invocation"]

/-- `SwiftLang::find_call` from `src/languages/swift.rs`: `None` outside the
call-kind set; for a `call_expression` the same child scan as
`find_goto_definition_node` (the two loop bodies are textually identical in
the source), falling back to the node itself; the node itself for the other
call kind. -/
def SwiftLang_find_call (n : STree) : Option STree :=
  if swiftCallKinds.contains n.kind = false then none
  else if n.kind == "call_expression" then
    match callChildSearch n with
    | some r => some r
    | none => some n
  else some n

/-- `RustLang::find_call` from `src/languages/rust.rs`: `None` outside the
call-kind set, otherwise the call node itself. -/
def RustLang_find_call (n : STree) : Option STree :=
  if rustCallKinds.contains n.kind = false then none
  else some n

/-- Modelled from the spec: the syntax tree produced by parsing
`fn main() { foo(); bar(1,2); }` with the (external, not in-repo)
tree-sitter Rust grammar, byte spans included; the walker is repository
code, the parser producing this tree is the external collaborator. -/
def rustMainTree : STree :=
  .node "source_file" 0 30 [
    .node "function_item" 0 30 [
      .node "fn" 0 2 [],
      .node "identifier" 3 7 [],
      .node "parameters" 7 9 [.node "(" 7 8 [], .node ")" 8 9 []],
      .node "block" 10 30 [
        .node "\x7b" 10 11 [],
        .node "expression_statement" 12 18 [
          .node "call_expression" 12 17 [
            .node "identifier" 12 15 [],
            .node "arguments" 15 17 [.node "(" 15 16 [], .node ")" 16 17 []]],
          .node ";" 17 18 []],
        .node "expression_statement" 19 28 [
          .node "call_expression" 19 27 [
            .node "identifier" 19 22 [],
            .node "arguments" 22 27 [
              .node "(" 22 23 [], .node "integer_literal" 23 24 [],
              .node "," 24 25 [], .node "integer_literal" 25 26 [],
              .node ")" 26 27 []]],
          .node ";" 27 28 []],
        .node "\x7d" 29 30 []]]]

/-- C1: on every tree whose root kind is not a call kind and whose call-kind
nodes have at least one child (true of all parsed trees), the walker yields
exactly one Call Site for each pre-order node whose kind is in the call-kind
set, in pre-order position; with no matching node it yields the empty
sequence, not an error.  The walker is a pure function of the tree, so
repeated invocations yield this same sequence. -/
theorem claim_C1_walker_preorder (kinds : List String) (t : STree)
    (hroot : kinds.contains t.kind = false)
    (hch : ∀ m ∈ t.preorder, kinds.contains m.kind = true → m.children.isEmpty = false) :
    getCallsWith kinds t = preorderCallSites kinds t ∧
      ((∀ m ∈ t.preorder, kinds.contains m.kind = false) → getCallsWith kinds t = []) := by
  have hch' : ∀ m ∈ t.preorder, kinds.contains m.kind = true → m.children ≠ [] := by
    intro m hm hk hnil
    have h2 := hch m hm hk
    rw [hnil] at h2
    simp at h2
  have heq := getCallsWith_eq kinds t (by simpa using hroot) hch'
  refine ⟨heq, ?_⟩
  intro hz
  rw [heq]
  have hfil : t.preorder.filter (fun n => kinds.contains n.kind) = [] := by
    rw [List.filter_eq_nil_iff]
    intro a ha
    simpa using hz a ha
  simp only [preorderCallSites]
  rw [hfil]
  rfl

/-- Witness for C1 at the modelled parse tree of
`fn main() { foo(); bar(1,2); }` with call-kind set `{call_expression}`. -/
theorem claim_C1_walker_preorder_witness :
    (["call_expression"].contains rustMainTree.kind = false) ∧
      (∀ m ∈ rustMainTree.preorder,
        ["call_expression"].contains m.kind = true → m.children.isEmpty = false) ∧
      (getCallsWith ["call_expression"] rustMainTree =
          preorderCallSites ["call_expression"] rustMainTree ∧
        ((∀ m ∈ rustMainTree.preorder, ["call_expression"].contains m.kind = false) →
          getCallsWith ["call_expression"] rustMainTree = [])) :=
  ⟨by decide, by decide,
    claim_C1_walker_preorder ["call_expression"] rustMainTree (by decide) (by decide)⟩

/-- C7: under the nested-ranges parse-tree invariant (and the same
parsed-tree assumptions as C1), every Call Site emitted by the walker has
its anchor's byte range contained in its call node's byte range. -/
theorem claim_C7_anchor_containment (kinds : List String) (t : STree)
    (hroot : kinds.contains t.kind = false)
    (hch : ∀ m ∈ t.preorder, kinds.contains m.kind = true → m.children.isEmpty = false)
    (hnest : RangesNested t) :
    ∀ site ∈ getCallsWith kinds t,
      site.call_node.startByte ≤ site.goto_definition_node.startByte ∧
      site.goto_definition_node.endByte ≤ site.call_node.endByte := by
  have hch' : ∀ m ∈ t.preorder, kinds.contains m.kind = true → m.children ≠ [] := by
    intro m hm hk hnil
    have h2 := hch m hm hk
    rw [hnil] at h2
    simp at h2
  have heq := getCallsWith_eq kinds t (by simpa using hroot) hch'
  rw [heq]
  intro site hsite
  simp only [preorderCallSites, List.mem_map] at hsite
  obtain ⟨m, hmf, rfl⟩ := hsite
  have hmt : m ∈ t.preorder := List.mem_of_mem_filter hmf
  exact spanWithin_of_mem_preorder t hnest m.size m (le_refl _) hmt
    (find_goto_definition_node m) (find_goto_mem m)

/-- Witness for C7 at the modelled parse tree of
`fn main() { foo(); bar(1,2); }`. -/
theorem claim_C7_anchor_containment_witness :
    (["call_expression"].contains rustMainTree.kind = false) ∧
      (∀ m ∈ rustMainTree.preorder,
        ["call_expression"].contains m.kind = true → m.children.isEmpty = false) ∧
      RangesNested rustMainTree ∧
      (∀ site ∈ getCallsWith ["call_expression"] rustMainTree,
        site.call_node.startByte ≤ site.goto_definition_node.startByte ∧
        site.goto_definition_node.endByte ≤ site.call_node.endByte) :=
  ⟨by decide, by decide, by decide,
    claim_C7_anchor_containment ["call_expression"] rustMainTree
      (by decide) (by decide) (by decide)⟩

/-- C8: the anchor-narrowing function is total on the call-kind set —
`SwiftLang::find_call` returns `Some` for every node whose kind is in the
Swift call-kind set, and when the child scan finds no nested name node both
it and `find_goto_definition_node` return the call node itself unchanged. -/
theorem claim_C8_narrowing_total (n : STree)
    (h : swiftCallKinds.contains n.kind = true) :
    (∃ m, SwiftLang_find_call n = some m ∧ (callChildSearch n = none → m = n)) ∧
      (callChildSearch n = none → find_goto_definition_node n = n) := by
  constructor
  · rw [SwiftLang_find_call, if_neg (by rw [h]; simp)]
    by_cases hk : (n.kind == "call_expression") = true
    · rw [if_pos hk]
      rcases hs : callChildSearch n with _ | r
      · exact ⟨n, rfl, fun _ => rfl⟩
      · exact ⟨r, rfl, fun hnone => by simp at hnone⟩
    · rw [if_neg hk]
      exact ⟨n, rfl, fun _ => rfl⟩
  · intro hnone
    rw [find_goto_definition_node]
    by_cases hk : (n.kind == "call_expression") = true
    · rw [if_pos hk, hnone]
    · rw [if_neg hk]

/-- Witness for C8 at a `call_expression` node whose children contain no
name node at all (the fallback path). -/
theorem claim_C8_narrowing_total_witness :
    (swiftCallKinds.contains
        (STree.node "call_expression" 0 6 [STree.node "weird" 0 3 []]).kind = true) ∧
      ((∃ m, SwiftLang_find_call
            (STree.node "call_expression" 0 6 [STree.node "weird" 0 3 []]) = some m ∧
          (callChildSearch (STree.node "call_expression" 0 6 [STree.node "weird" 0 3 []]) =
              none → m = STree.node "call_expression" 0 6 [STree.node "weird" 0 3 []])) ∧
        (callChildSearch (STree.node "call_expression" 0 6 [STree.node "weird" 0 3 []]) =
            none →
          find_goto_definition_node
              (STree.node "call_expression" 0 6 [STree.node "weird" 0 3 []]) =
            STree.node "call_expression" 0 6 [STree.node "weird" 0 3 []])) :=
  ⟨by decide,
    claim_C8_narrowing_total (STree.node "call_expression" 0 6 [STree.node "weird" 0 3 []])
      (by decide)⟩

/-- C9 as stated is false on the code: walking the modelled parse tree of
`fn main() { foo(); bar(1,2); }` with call-kind set `{call_expression}`
does yield exactly 2 Call Sites in source order, but
`find_goto_definition_node` narrows each anchor to the callee `identifier`
child, so the anchor span is properly contained in — not equal to — the
call span. -/
theorem claim_C9_counterexample :
    ¬ (∀ site ∈ getCallsWith ["call_expression"] rustMainTree,
        site.goto_definition_node.startByte = site.call_node.startByte ∧
        site.goto_definition_node.endByte = site.call_node.endByte) := by
  intro h
  have hval : (getCallsWith ["call_expression"] rustMainTree).map
      (fun s => ((s.call_node.startByte, s.call_node.endByte),
                 (s.goto_definition_node.startByte, s.goto_definition_node.endByte))) =
      [((12, 17), (12, 15)), ((19, 27), (19, 22))] := by
    simp [getCallsWith, collectCalls, callIterNext, advance, gotoFirstChild, climbNext,
      rustMainTree, STree.size, STree.size.sizeList, rootTree,
      find_goto_definition_node, callChildSearch, callChildSearch.loop, STree.kind,
      STree.children, STree.startByte, STree.endByte, navSearch, navSearch.navFirst,
      suffixSearch]
  rcases hl : getCallsWith ["call_expression"] rustMainTree with _ | ⟨s0, rest⟩
  · rw [hl] at hval; simp at hval
  · rw [hl] at hval
    simp only [List.map_cons, List.cons.injEq, Prod.mk.injEq] at hval
    have hmem : s0 ∈ getCallsWith ["call_expression"] rustMainTree := by
      rw [hl]; exact List.mem_cons_self _ _
    have := h s0 hmem
    omega

/-- C9 amended: the scenario yields exactly 2 Call Sites in source order,
and each anchor span is the span of the callee identifier, properly
contained in the call span (`foo` at bytes 12–15 inside the call at 12–17,
`bar` at 19–22 inside 19–27). -/
theorem claim_C9_amended :
    (getCallsWith ["call_expression"] rustMainTree).map
      (fun s => ((s.call_node.startByte, s.call_node.endByte),
                 (s.goto_definition_node.startByte, s.goto_definition_node.endByte))) =
      [((12, 17), (12, 15)), ((19, 27), (19, 22))] := by
  simp [getCallsWith, collectCalls, callIterNext, advance, gotoFirstChild, climbNext,
    rustMainTree, STree.size, STree.size.sizeList, rootTree,
    find_goto_definition_node, callChildSearch, callChildSearch.loop, STree.kind,
    STree.children, STree.startByte, STree.endByte, navSearch, navSearch.navFirst,
    suffixSearch]

/-!
## The protocol session (`src/lsp.rs`)

Byte streams are modelled as `List Char` with one character per byte (every
theorem instantiates them with ASCII data only).  `serde_json` is an external
library, so its value type and its compact serialization are modelled from
the specification ("framed JSON messages … JSON-RPC 2.0 payload"): `Json`
values, `ser` for `serde_json::to_string` (numbers are unsigned, strings are
restricted by `wf` to printable ASCII without `"` or `\` so that no escaping
arises), and `from_str` as a parser of that compact format.
-/

/-- Modelled from the spec: `serde_json::Value` for the JSON-RPC payloads
(the serde_json library is not part of the repository). -/
inductive Json where
  | obj (fields : List (List Char × Json))
  | arr (elems : List Json)
  | str (s : List Char)
  | num (n : Nat)
  | bool (b : Bool)
  | null

/-- Decimal digits of `n`, most significant first (`itoa` as used by the
`Display` formatting of lengths and by the modelled serialization). -/
def natChars (n : Nat) : List Char :=
  if h : n < 10 then [Char.ofNat (48 + n)]
  else natChars (n / 10) ++ [Char.ofNat (48 + n % 10)]
decreasing_by exact Nat.div_lt_self (by omega) (by omega)

mutual

/-- Modelled from the spec: `serde_json::to_string`, the compact (no
whitespace) JSON serialization of a value. -/
def ser : Json → List Char
  | .str s => '"' :: (s ++ ['"'])
  | .num n => natChars n
  | .arr [] => ['[', ']']
  | .arr (x :: xs) => '[' :: ((ser x ++ serTail xs) ++ [']'])
  | .obj [] => ['\x7b', '\x7d']
  | .obj (f :: fs) => '\x7b' :: ((serField f ++ serFieldTail fs) ++ ['\x7d'])
  | .bool false => ['f', 'a', 'l', 's', 'e']
  | .bool true => ['t', 'r', 'u', 'e']
  | .null => ['n', 'u', 'l', 'l']

/-- Remaining array elements, each preceded by a comma. -/
def serTail : List Json → List Char
  | [] => []
  | v :: vs => ',' :: (ser v ++ serTail vs)

/-- One object field: quoted key, colon, value. -/
def serField : List Char × Json → List Char
  | (k, v) => '"' :: (k ++ ('"' :: ':' :: ser v))

/-- Remaining object fields, each preceded by a comma. -/
def serFieldTail : List (List Char × Json) → List Char
  | [] => []
  | f :: fs => ',' :: (serField f ++ serFieldTail fs)

end

/-- A character that needs no JSON escaping: printable ASCII other than the
quote and the backslash.  The `wf` theorems restrict modelled string
contents to these, so the modelled serializer faithfully matches serde's
output on them. -/
def plainChar (c : Char) : Bool :=
  32 ≤ c.toNat && c.toNat ≤ 126 && !(c == '"') && !(c == '\\')

mutual

/-- Well-formedness of a modelled JSON value: all strings and keys consist
of plain characters. -/
def wf : Json → Bool
  | .str s => s.all plainChar
  | .arr xs => wfList xs
  | .obj fs => wfFields fs
  | _ => true

def wfList : List Json → Bool
  | [] => true
  | x :: xs => wf x && wfList xs

def wfFields : List (List Char × Json) → Bool
  | [] => true
  | (k, v) :: fs => k.all plainChar && wf v && wfFields fs

end

mutual

/-- Parser fuel measure of a value. -/
def jsize : Json → Nat
  | .arr xs => 1 + jsizeL xs
  | .obj fs => 1 + jsizeF fs
  | _ => 1

def jsizeL : List Json → Nat
  | [] => 1
  | x :: xs => 1 + jsize x + jsizeL xs

def jsizeF : List (List Char × Json) → Nat
  | [] => 1
  | (_, q) :: fs => 1 + jsize q + jsizeF fs

end

/-- Longest digit run at the head of the input, and the rest. -/
def takeDigits : List Char → List Char × List Char
  | [] => ([], [])
  | c :: cs =>
      if c.isDigit then
        let (ds, rest) := takeDigits cs
        (c :: ds, rest)
      else ([], c :: cs)

/-- Numeric value of a digit run. -/
def digitsVal (ds : List Char) : Nat :=
  ds.foldl (fun a c => 10 * a + (c.toNat - 48)) 0

/-- Match a literal character sequence, returning the rest of the input. -/
def expectLit : List Char → List Char → Option (List Char)
  | [], input => some input
  | _ :: _, [] => none
  | l :: ls, c :: cs => if c = l then expectLit ls cs else none

/-- String body: characters up to the closing quote (the model's strings
contain no escapes, see `plainChar`). -/
def parseStringBody : List Char → Option (List Char × List Char)
  | [] => none
  | c :: cs =>
      if c = '"' then some ([], cs)
      else
        match parseStringBody cs with
        | some (s, r) => some (c :: s, r)
        | none => none

mutual

/-- Modelled from the spec: the value grammar of `serde_json::from_str`,
specialized to the compact format the modelled serializer emits. -/
def parseJson : Nat → List Char → Option (Json × List Char)
  | 0, _ => none
  | _ + 1, [] => none
  | fuel + 1, c :: rest =>
      if c.isDigit then
        let (ds, r) := takeDigits (c :: rest)
        some (.num (digitsVal ds), r)
      else if c = '"' then
        match parseStringBody rest with
        | some (s, r) => some (.str s, r)
        | none => none
      else if c = '[' then
        if rest.head? = some ']' then some (.arr [], rest.tail)
        else
          match parseElems fuel rest with
          | some (xs, r) => some (.arr xs, r)
          | none => none
      else if c = '\x7b' then
        if rest.head? = some '\x7d' then some (.obj [], rest.tail)
        else
          match parseFields fuel rest with
          | some (fs, r) => some (.obj fs, r)
          | none => none
      else if c = 'n' then
        match expectLit ['u', 'l', 'l'] rest with
        | some r => some (.null, r)
        | none => none
      else if c = 't' then
        match expectLit ['r', 'u', 'e'] rest with
        | some r => some (.bool true, r)
        | none => none
      else if c = 'f' then
        match expectLit ['a', 'l', 's', 'e'] rest with
        | some r => some (.bool false, r)
        | none => none
      else none

/-- One or more comma-separated elements followed by the closing bracket. -/
def parseElems : Nat → List Char → Option (List Json × List Char)
  | 0, _ => none
  | fuel + 1, input =>
      match parseJson fuel input with
      | some (v, r) =>
          match r with
          | ',' :: r2 =>
              match parseElems fuel r2 with
              | some (xs, r3) => some (v :: xs, r3)
              | none => none
          | ']' :: r2 => some ([v], r2)
          | _ => none
      | none => none

/-- One or more comma-separated `"key":value` fields followed by the closing
brace. -/
def parseFields : Nat → List Char → Option (List (List Char × Json) × List Char)
  | 0, _ => none
  | fuel + 1, input =>
      match input with
      | '"' :: r0 =>
          match parseStringBody r0 with
          | some (k, r1) =>
              match r1 with
              | ':' :: r2 =>
                  match parseJson fuel r2 with
                  | some (v, r3) =>
                      match r3 with
                      | ',' :: r4 =>
                          match parseFields fuel r4 with
                          | some (fs, r5) => some ((k, v) :: fs, r5)
                          | none => none
                      | '\x7d' :: r4 => some ([(k, v)], r4)
                      | _ => none
                  | none => none
              | _ => none
          | none => none
      | _ => none

end

/-- Modelled from the spec: `serde_json::from_str` — parse the whole input
as one JSON value, rejecting trailing input and the empty input. -/
def from_str (s : List Char) : Option Json :=
  match parseJson (2 * s.length + 2) s with
  | some (v, []) => some v
  | _ => none

/-- The input does not start with a digit (so a decimal number just before
it is parsed back maximally and exactly). -/
def noDigitHead (rest : List Char) : Prop :=
  ∀ c, rest.head? = some c → c.isDigit = false

theorem noDigitHead_nil : noDigitHead [] := by
  intro c h
  simp at h

theorem noDigitHead_cons {c : Char} {l : List Char} (h : c.isDigit = false) :
    noDigitHead (c :: l) := by
  intro d hd
  simp at hd
  subst hd
  exact h

theorem natChars_ne_nil (n : Nat) : natChars n ≠ [] := by
  rw [natChars]
  by_cases h : n < 10
  · simp [h]
  · simp [h]

theorem natChars_digits (n : Nat) : ∀ c ∈ natChars n, c.isDigit = true := by
  induction n using Nat.strongRecOn with
  | ind n ih =>
      intro c hc
      rw [natChars] at hc
      by_cases h : n < 10
      · rw [dif_pos h] at hc
        simp at hc
        subst hc
        interval_cases n <;> decide
      · rw [dif_neg h] at hc
        rcases List.mem_append.mp hc with h2 | h2
        · exact ih (n / 10) (Nat.div_lt_self (by omega) (by omega)) c h2
        · simp at h2
          subst h2
          have h3 : n % 10 < 10 := Nat.mod_lt _ (by omega)
          interval_cases h4 : n % 10 <;> simp_all <;> decide

theorem foldl_digit_natChars (n : Nat) :
    ∀ acc : Nat, (natChars n).foldl (fun a c => 10 * a + (c.toNat - 48)) acc =
      acc * 10 ^ (natChars n).length + n := by
  induction n using Nat.strongRecOn with
  | ind n ih =>
      intro acc
      rw [natChars]
      by_cases h : n < 10
      · rw [dif_pos h]
        simp only [List.foldl_cons, List.foldl_nil, List.length_cons, List.length_nil]
        have hv : (Char.ofNat (48 + n)).toNat - 48 = n := by
          interval_cases n <;> decide
        rw [hv]
        ring
      · rw [dif_neg h]
        rw [List.foldl_append, List.length_append]
        rw [ih (n / 10) (Nat.div_lt_self (by omega) (by omega)) acc]
        simp only [List.foldl_cons, List.foldl_nil, List.length_cons, List.length_nil]
        have hv : (Char.ofNat (48 + n % 10)).toNat - 48 = n % 10 := by
          have h3 : n % 10 < 10 := Nat.mod_lt _ (by omega)
          interval_cases h4 : n % 10 <;> simp_all <;> decide
        rw [hv]
        have : 10 * (acc * 10 ^ (natChars (n / 10)).length + n / 10) + n % 10 =
            acc * (10 ^ (natChars (n / 10)).length * 10) + (10 * (n / 10) + n % 10) := by
          ring
        rw [this, Nat.pow_succ, Nat.div_add_mod]

theorem digitsVal_natChars (n : Nat) : digitsVal (natChars n) = n := by
  rw [digitsVal, foldl_digit_natChars n 0]
  simp

theorem takeDigits_append :
    ∀ (ds rest : List Char), (∀ c ∈ ds, c.isDigit = true) → noDigitHead rest →
      takeDigits (ds ++ rest) = (ds, rest) := by
  intro ds
  induction ds with
  | nil =>
      intro rest _ hnd
      cases rest with
      | nil => rfl
      | cons c cs =>
          rw [List.nil_append, takeDigits]
          rw [hnd c (by simp)]
          simp
  | cons d ds ih =>
      intro rest hdig hnd
      rw [List.cons_append, takeDigits]
      rw [hdig d (by simp)]
      simp only [if_true]
      rw [ih rest (fun c hc => hdig c (by simp [hc])) hnd]

theorem plainChar_ne_quote {c : Char} (h : plainChar c = true) : (c = '"') = False := by
  simp only [plainChar, Bool.and_eq_true, Bool.not_eq_true', beq_eq_false_iff_ne] at h
  simp [h.1.2]

theorem parseStringBody_round :
    ∀ (s rest : List Char), (∀ c ∈ s, plainChar c = true) →
      parseStringBody (s ++ '"' :: rest) = some (s, rest) := by
  intro s
  induction s with
  | nil =>
      intro rest _
      rw [List.nil_append, parseStringBody]
      simp
  | cons c cs ih =>
      intro rest hp
      rw [List.cons_append, parseStringBody]
      rw [if_neg (by simp [plainChar_ne_quote (hp c (by simp))])]
      rw [ih rest (fun d hd => hp d (by simp [hd]))]

theorem jsize_pos (v : Json) : 1 ≤ jsize v := by
  cases v <;> simp [jsize]

theorem jsizeL_pos (l : List Json) : 1 ≤ jsizeL l := by
  cases l <;> simp [jsizeL] <;> omega

theorem jsizeF_pos (l : List (List Char × Json)) : 1 ≤ jsizeF l := by
  cases l with
  | nil => simp [jsizeF]
  | cons f fs => rcases f with ⟨k, v⟩; simp [jsizeF]; omega

/-- Every serialized value starts with one of the parser's dispatch
characters. -/
theorem ser_head (v : Json) :
    ∀ c, (ser v).head? = some c →
      (c.isDigit || c == '"' || c == '[' || c == '\x7b' ||
        c == 'n' || c == 't' || c == 'f') = true := by
  intro c hc
  cases v with
  | null => simp [ser] at hc; subst hc; decide
  | bool b => cases b <;> simp [ser] at hc <;> subst hc <;> decide
  | num n =>
      simp only [ser] at hc
      rcases hn : natChars n with _ | ⟨d, ds⟩
      · exact absurd hn (natChars_ne_nil n)
      · rw [hn] at hc
        simp at hc
        subst hc
        have hd := natChars_digits n d (by rw [hn]; simp)
        simp [hd]
  | str s => simp [ser] at hc; subst hc; decide
  | arr xs => cases xs <;> simp [ser] at hc <;> subst hc <;> decide
  | obj fs => cases fs <;> simp [ser] at hc <;> subst hc <;> decide

theorem ser_ne_nil (v : Json) : ser v ≠ [] := by
  cases v with
  | null => simp [ser]
  | bool b => cases b <;> simp [ser]
  | num n => simp only [ser]; exact natChars_ne_nil n
  | str s => simp [ser]
  | arr xs => cases xs <;> simp [ser]
  | obj fs => cases fs <;> simp [ser]

theorem ser_head_ne_rbracket (v : Json) (l : List Char) :
    ¬ (ser v ++ l).head? = some ']' := by
  intro h
  rcases hs : ser v with _ | ⟨c, cs⟩
  · exact ser_ne_nil v hs
  · rw [hs] at h
    simp at h
    subst h
    have := ser_head v ']' (by rw [hs]; simp)
    simp at this

theorem ser_head_ne_rbrace (v : Json) (l : List Char) :
    ¬ (ser v ++ l).head? = some '\x7d' := by
  intro h
  rcases hs : ser v with _ | ⟨c, cs⟩
  · exact ser_ne_nil v hs
  · rw [hs] at h
    simp at h
    subst h
    have := ser_head v '\x7d' (by rw [hs]; simp)
    simp at this

/-- Round trip of the modelled JSON codec: with enough fuel, parsing a
serialized well-formed value followed by any non-digit-leading trailer
recovers the value and the trailer exactly (stated mutually with the
element-list and field-list parsers). -/
theorem parse_ser_round : ∀ fuel : Nat,
    (∀ (v : Json) (rest : List Char), jsize v < fuel → wf v = true → noDigitHead rest →
      parseJson fuel (ser v ++ rest) = some (v, rest)) ∧
    (∀ (x : Json) (xs : List Json) (rest : List Char),
      jsizeL (x :: xs) < fuel → wfList (x :: xs) = true →
      parseElems fuel ((ser x ++ serTail xs) ++ (']' :: rest)) = some (x :: xs, rest)) ∧
    (∀ (k : List Char) (v : Json) (fs : List (List Char × Json)) (rest : List Char),
      jsizeF ((k, v) :: fs) < fuel → wfFields ((k, v) :: fs) = true →
      parseFields fuel ((serField (k, v) ++ serFieldTail fs) ++ ('\x7d' :: rest)) =
        some ((k, v) :: fs, rest)) := by
  intro fuel
  induction fuel using Nat.strong_induction_on with
  | _ fuel ih =>
    refine ⟨?_, ?_, ?_⟩
    · intro v rest hsz hwf hnd
      cases fuel with
      | zero => omega
      | succ f =>
        cases v with
        | null =>
            rw [show ser .null ++ rest = 'n' :: ('u' :: 'l' :: 'l' :: rest) from rfl]
            simp +decide only [parseJson]
            simp [expectLit]
        | bool b =>
            cases b with
            | true =>
                rw [show ser (.bool true) ++ rest = 't' :: ('r' :: 'u' :: 'e' :: rest) from rfl]
                simp +decide only [parseJson]
                simp [expectLit]
            | false =>
                rw [show ser (.bool false) ++ rest =
                  'f' :: ('a' :: 'l' :: 's' :: 'e' :: rest) from rfl]
                simp +decide only [parseJson]
                simp [expectLit]
        | num n =>
            rw [show ser (.num n) = natChars n from rfl]
            rcases hn : natChars n with _ | ⟨d, ds⟩
            · exact absurd hn (natChars_ne_nil n)
            · have hd : d.isDigit = true := natChars_digits n d (by rw [hn]; simp)
              have hds : takeDigits ((d :: ds) ++ rest) = (d :: ds, rest) :=
                takeDigits_append (d :: ds) rest
                  (fun c hc => natChars_digits n c (by rw [hn]; exact hc)) hnd
              rw [List.cons_append]
              simp only [parseJson]
              rw [if_pos hd]
              rw [show d :: (ds ++ rest) = (d :: ds) ++ rest from rfl, hds]
              have : digitsVal (d :: ds) = n := by rw [← hn]; exact digitsVal_natChars n
              rw [this]
        | str s =>
            have hplain : ∀ c ∈ s, plainChar c = true := by
              simp only [wf, List.all_eq_true] at hwf
              exact hwf
            rw [show ser (.str s) ++ rest = '"' :: (s ++ '"' :: rest) by simp [ser]]
            simp +decide only [parseJson, if_true, if_false]
            rw [parseStringBody_round s rest hplain]
        | arr xs =>
            cases xs with
            | nil =>
                rw [show ser (.arr []) ++ rest = '[' :: (']' :: rest) from rfl]
                simp +decide only [parseJson, List.head?_cons, List.tail_cons, if_true, if_false]
            | cons x xs =>
                rw [show ser (.arr (x :: xs)) ++ rest =
                  '[' :: ((ser x ++ serTail xs) ++ (']' :: rest)) by simp [ser]]
                simp +decide only [parseJson, if_true, if_false]
                rw [if_neg (by
                  rw [List.append_assoc]
                  exact ser_head_ne_rbracket x (serTail xs ++ ']' :: rest))]
                have hszl : jsizeL (x :: xs) < f := by
                  simp only [jsize] at hsz; omega
                have hwfl : wfList (x :: xs) = true := by
                  simpa [wf] using hwf
                rw [(ih f (by omega)).2.1 x xs rest hszl hwfl]
        | obj fs =>
            cases fs with
            | nil =>
                rw [show ser (.obj []) ++ rest = '\x7b' :: ('\x7d' :: rest) from rfl]
                simp +decide only [parseJson, List.head?_cons, List.tail_cons, if_true, if_false]
            | cons g gs =>
                rcases g with ⟨k, v⟩
                rw [show ser (.obj ((k, v) :: gs)) ++ rest =
                  '\x7b' :: ((serField (k, v) ++ serFieldTail gs) ++ ('\x7d' :: rest)) by
                    simp [ser]]
                simp +decide only [parseJson, if_true, if_false]
                rw [if_neg (by
                  rw [List.append_assoc]
                  have : serField (k, v) = ser (.str k) ++ (':' :: ser v) := by
                    simp [serField, ser]
                  rw [this, List.append_assoc]
                  exact ser_head_ne_rbrace (.str k) _)]
                have hszf : jsizeF ((k, v) :: gs) < f := by
                  simp only [jsize] at hsz; omega
                have hwff : wfFields ((k, v) :: gs) = true := by
                  simpa [wf] using hwf
                rw [(ih f (by omega)).2.2 k v gs rest hszf hwff]
    · intro x xs rest hsz hwf
      cases fuel with
      | zero => omega
      | succ f =>
        have hwx : wf x = true := by
          simp only [wfList, Bool.and_eq_true] at hwf
          exact hwf.1
        have hwxs : wfList xs = true := by
          simp only [wfList, Bool.and_eq_true] at hwf
          exact hwf.2
        have hnd' : noDigitHead (serTail xs ++ ']' :: rest) := by
          cases xs with
          | nil => exact noDigitHead_cons (by decide)
          | cons y ys =>
              rw [show serTail (y :: ys) ++ ']' :: rest =
                ',' :: ((ser y ++ serTail ys) ++ (']' :: rest)) by simp [serTail]]
              exact noDigitHead_cons (by decide)
        have hszx : jsize x < f := by
          have h1 := jsizeL_pos xs
          simp only [jsizeL] at hsz
          omega
        rw [List.append_assoc]
        simp only [parseElems]
        rw [(ih f (by omega)).1 x (serTail xs ++ ']' :: rest) hszx hwx hnd']
        cases xs with
        | nil => simp [serTail]
        | cons y ys =>
            have hszl : jsizeL (y :: ys) < f := by
              have h1 := jsize_pos x
              simp only [jsizeL] at hsz ⊢
              omega
            have hrec := (ih f (by omega)).2.1 y ys rest hszl hwxs
            rw [show serTail (y :: ys) ++ ']' :: rest =
              ',' :: ((ser y ++ serTail ys) ++ (']' :: rest)) by simp [serTail]]
            simp only [List.append_assoc] at hrec
            simp [hrec]
    · intro k v fs rest hsz hwf
      cases fuel with
      | zero => omega
      | succ f =>
        have hwk : ∀ c ∈ k, plainChar c = true := by
          simp only [wfFields, Bool.and_eq_true, List.all_eq_true] at hwf
          exact hwf.1.1
        have hwv : wf v = true := by
          simp only [wfFields, Bool.and_eq_true] at hwf
          exact hwf.1.2
        have hwfs : wfFields fs = true := by
          simp only [wfFields, Bool.and_eq_true] at hwf
          exact hwf.2
        have hnd' : noDigitHead (serFieldTail fs ++ '\x7d' :: rest) := by
          cases fs with
          | nil => exact noDigitHead_cons (by decide)
          | cons g gs =>
              rw [show serFieldTail (g :: gs) ++ '\x7d' :: rest =
                ',' :: ((serField g ++ serFieldTail gs) ++ ('\x7d' :: rest)) by
                  simp [serFieldTail]]
              exact noDigitHead_cons (by decide)
        have hszv : jsize v < f := by
          have h1 := jsizeF_pos fs
          simp only [jsizeF] at hsz
          omega
        rw [show (serField (k, v) ++ serFieldTail fs) ++ ('\x7d' :: rest) =
          '"' :: (k ++ '"' :: (':' :: (ser v ++ (serFieldTail fs ++ '\x7d' :: rest)))) by
            simp [serField]]
        simp only [parseFields]
        rw [parseStringBody_round k _ hwk]
        have hrecv := (ih f (by omega)).1 v (serFieldTail fs ++ '\x7d' :: rest) hszv hwv hnd'
        cases fs with
        | nil =>
            simp only [serFieldTail, List.nil_append] at hrecv
            simp [serFieldTail, hrecv]
        | cons g gs =>
            rcases g with ⟨k2, v2⟩
            have hszf : jsizeF ((k2, v2) :: gs) < f := by
              have h1 := jsize_pos v
              simp only [jsizeF] at hsz ⊢
              omega
            have hrecf := (ih f (by omega)).2.2 k2 v2 gs rest hszf hwfs
            rw [show serFieldTail ((k2, v2) :: gs) ++ '\x7d' :: rest =
              ',' :: ((serField (k2, v2) ++ serFieldTail gs) ++ ('\x7d' :: rest)) by
                simp [serFieldTail]] at hrecv
            simp only [List.append_assoc] at hrecv hrecf
            simp [serFieldTail, hrecv, hrecf]

/-- The parser-fuel measure is dominated by twice the serialized length, so
`from_str`'s fuel always suffices on serializer output. -/
theorem jsize_le_ser_len : ∀ n : Nat,
    (∀ v : Json, jsize v ≤ n → jsize v ≤ 2 * (ser v).length) ∧
    (∀ l : List Json, jsizeL l ≤ n → jsizeL l ≤ 2 * (serTail l).length + 2) ∧
    (∀ fs : List (List Char × Json), jsizeF fs ≤ n →
      jsizeF fs ≤ 2 * (serFieldTail fs).length + 2) := by
  intro n
  induction n using Nat.strong_induction_on with
  | _ n ih =>
    refine ⟨?_, ?_, ?_⟩
    · intro v hv
      cases v with
      | null => simp [jsize, ser]
      | bool b => cases b <;> simp [jsize, ser]
      | num m =>
          have h1 := natChars_ne_nil m
          have h2 : 1 ≤ (natChars m).length := by
            cases hn : natChars m with
            | nil => exact absurd hn h1
            | cons c cs => simp
          simp only [jsize, ser]
          omega
      | str s => simp [jsize, ser]; omega
      | arr xs =>
          cases xs with
          | nil => simp [jsize, jsizeL, ser]
          | cons x xs =>
              have hx : jsize x < n := by
                have := jsizeL_pos xs
                simp only [jsize, jsizeL] at hv
                omega
              have hxs : jsizeL xs < n := by
                have := jsize_pos x
                simp only [jsize, jsizeL] at hv
                omega
              have ih1 := (ih (jsize x) hx).1 x le_rfl
              have ih2 := (ih (jsizeL xs) hxs).2.1 xs le_rfl
              simp only [jsize, jsizeL, ser, List.length_cons, List.length_append,
                List.length_nil]
              omega
      | obj fs =>
          cases fs with
          | nil => simp [jsize, jsizeF, ser]
          | cons g gs =>
              rcases g with ⟨k, v⟩
              have hx : jsize v < n := by
                have := jsizeF_pos gs
                simp only [jsize, jsizeF] at hv
                omega
              have hxs : jsizeF gs < n := by
                have := jsize_pos v
                simp only [jsize, jsizeF] at hv
                omega
              have ih1 := (ih (jsize v) hx).1 v le_rfl
              have ih2 := (ih (jsizeF gs) hxs).2.2 gs le_rfl
              simp only [jsize, jsizeF, ser, serField, List.length_cons,
                List.length_append, List.length_nil]
              omega
    · intro l hl
      cases l with
      | nil => simp [jsizeL, serTail]
      | cons x xs =>
          have hx : jsize x < n := by
            have := jsizeL_pos xs
            simp only [jsizeL] at hl
            omega
          have hxs : jsizeL xs < n := by
            have := jsize_pos x
            simp only [jsizeL] at hl
            omega
          have ih1 := (ih (jsize x) hx).1 x le_rfl
          have ih2 := (ih (jsizeL xs) hxs).2.1 xs le_rfl
          simp only [jsizeL, serTail, List.length_cons, List.length_append]
          omega
    · intro fs hfs
      cases fs with
      | nil => simp [jsizeF, serFieldTail]
      | cons g gs =>
          rcases g with ⟨k, v⟩
          have hx : jsize v < n := by
            have := jsizeF_pos gs
            simp only [jsizeF] at hfs
            omega
          have hxs : jsizeF gs < n := by
            have := jsize_pos v
            simp only [jsizeF] at hfs
            omega
          have ih1 := (ih (jsize v) hx).1 v le_rfl
          have ih2 := (ih (jsizeF gs) hxs).2.2 gs le_rfl
          simp only [jsizeF, serFieldTail, serField, List.length_cons,
            List.length_append]
          omega

/-- Decoding inverts the modelled serialization on well-formed values. -/
theorem from_str_ser (v : Json) (hwf : wf v = true) : from_str (ser v) = some v := by
  rw [from_str]
  have hb : jsize v ≤ 2 * (ser v).length := (jsize_le_ser_len (jsize v)).1 v le_rfl
  have h := (parse_ser_round (2 * (ser v).length + 2)).1 v [] (by omega) hwf noDigitHead_nil
  rw [List.append_nil] at h
  rw [h]

/-- Whitespace as removed by Rust's `str::trim` (the characters it meets in
this protocol: space, tab, CR, LF). -/
def isWs (c : Char) : Bool := c = ' ' || c = '\t' || c = '\r' || c = '\n'

def ltrim (l : List Char) : List Char := l.dropWhile isWs

def rtrim (l : List Char) : List Char := (l.reverse.dropWhile isWs).reverse

/-- `str::trim`. -/
def trim (l : List Char) : List Char := ltrim (rtrim l)

/-- `str::parse::<usize>` on the trimmed header value: digits only. -/
def parseNatStr (l : List Char) : Option Nat :=
  if l ≠ [] ∧ l.all Char.isDigit then some (digitsVal l) else none

/-- `BufRead::read_line`: everything up to and including the first newline,
or the whole input at end of stream. -/
def readLine : List Char → List Char × List Char
  | [] => ([], [])
  | c :: cs =>
      if c = '\n' then ([c], cs)
      else
        let (l, r) := readLine cs
        (c :: l, r)

/-- `str::strip_prefix` against a literal: the rest of the input after the
literal, or `none` when the input does not start with it (the match is
case- and spacing-sensitive, exactly as in the source). -/
def dropLit : List Char → List Char → Option (List Char)
  | [], input => some input
  | _ :: _, [] => none
  | l :: ls, c :: cs => if c = l then dropLit ls cs else none

/-- The header name matched by `read_response`. -/
def contentLengthLit : List Char := "Content-Length: ".toList

/-- Failure modes of `LspServer::read_response`. -/
inductive ReadError where
  /-- The header loop re-reads end-of-stream forever in the source; the
  model's fuel maps that hang to this error value. -/
  | hung
  /-- `length_str.trim().parse()?` failed. -/
  | badLength
  /-- `read_exact` hit end-of-stream before `content_length` bytes. -/
  | truncatedPayload
  /-- `serde_json::from_str` failed on the payload. -/
  | decodeError
deriving DecidableEq

/-- The header loop of `LspServer::read_response` (`src/lsp.rs`): read one
line at a time; a bare `\r\n` ends the headers; a line with the
`Content-Length: ` prefix overwrites the length (initially `0`); any other
line is ignored. -/
def readHeaders : Nat → List Char → Nat → Except ReadError (Nat × List Char)
  | 0, _, _ => .error .hung
  | fuel + 1, input, cl =>
      let (header, rest) := readLine input
      if header = ['\r', '\n'] then .ok (cl, rest)
      else
        match dropLit contentLengthLit header with
        | some lenStr =>
            match parseNatStr (trim lenStr) with
            | some m => readHeaders fuel rest m
            | none => .error .badLength
        | none => readHeaders fuel rest cl

/-- `LspServer::read_response` (`src/lsp.rs`): headers, then exactly
`content_length` payload bytes, then JSON decoding.  Successful reads also
return the unconsumed remainder of the stream (the source consumes it from
`self.stdout`); `String::from_utf8` is the identity in this byte-per-char
model. -/
def read_response (input : List Char) : Except ReadError (Json × List Char) :=
  match readHeaders (input.length + 1) input 0 with
  | .error e => .error e
  | .ok (n, rest) =>
      if rest.length < n then .error .truncatedPayload
      else
        match from_str (rest.take n) with
        | some v => .ok (v, rest.drop n)
        | none => .error .decodeError

/-- `request_string` (`src/lsp.rs`):
`format!("Content-Length: {}\r\n\r\n{}", request_str.len(), request_str)`. -/
def request_string (payload : List Char) : List Char :=
  contentLengthLit ++ natChars payload.length ++ ('\r' :: '\n' :: '\r' :: '\n' :: payload)

/-- `request_string` applied to a serialized value (the source serializes
with `serde_json::to_string` before formatting). -/
def request_string_json (v : Json) : List Char := request_string (ser v)

/-- `serde_json::Value::get` on an object (first field with the key). -/
def jget (v : Json) (key : List Char) : Option Json :=
  match v with
  | .obj fs => (fs.find? (fun f => f.1 = key)).map (fun f => f.2)
  | _ => none

/-- `serde_json::Value::as_u64`. -/
def as_u64 : Json → Option Nat
  | .num n => some n
  | _ => none

/-- `LspServer::read_response_with_id` (`src/lsp.rs`): decode framed
messages one at a time; return the first whose `id` field is the expected
one; messages with a different id and notifications without an id are only
logged and the loop keeps reading; read errors propagate.  `fuel` bounds the
number of messages inspected (the source loops indefinitely). -/
def read_response_with_id (fuel : Nat) (expected : Nat) (input : List Char) :
    Except ReadError (Json × List Char) :=
  match fuel with
  | 0 => .error .hung
  | fuel + 1 =>
      match read_response input with
      | .error e => .error e
      | .ok (msg, rest) =>
          match jget msg ['i', 'd'] with
          | some idv =>
              if as_u64 idv = some expected then .ok (msg, rest)
              else read_response_with_id fuel expected rest
          | none => read_response_with_id fuel expected rest

theorem readLine_append :
    ∀ (l r : List Char), '\n' ∉ l → readLine (l ++ '\n' :: r) = (l ++ ['\n'], r) := by
  intro l
  induction l with
  | nil =>
      intro r _
      rw [List.nil_append, readLine]
      simp
  | cons c cs ih =>
      intro r hn
      simp only [List.mem_cons, not_or] at hn
      rw [List.cons_append, readLine]
      rw [if_neg (fun he => hn.1 he.symm)]
      rw [ih r hn.2]
      rfl

theorem dropLit_self : ∀ (lit t : List Char), dropLit lit (lit ++ t) = some t := by
  intro lit
  induction lit with
  | nil => intro t; rfl
  | cons l ls ih =>
      intro t
      rw [List.cons_append, dropLit, if_pos rfl]
      exact ih t

theorem digit_not_ws {c : Char} (h : c.isDigit = true) : isWs c = false := by
  cases hc : isWs c
  · rfl
  · exfalso
    simp only [isWs, Bool.or_eq_true, decide_eq_true_eq] at hc
    rcases hc with ((h1 | h1) | h1) | h1 <;> subst h1 <;> exact absurd h (by decide)

theorem dropWhile_ws_digits {m : List Char} (hd : ∀ c ∈ m, c.isDigit = true) :
    m.dropWhile isWs = m := by
  cases m with
  | nil => rfl
  | cons c cs =>
      rw [List.dropWhile_cons]
      rw [digit_not_ws (hd c (by simp))]
      simp

theorem trim_digits_crlf (n : Nat) : trim (natChars n ++ ['\r', '\n']) = natChars n := by
  have hd := natChars_digits n
  rw [trim, rtrim]
  rw [show (natChars n ++ ['\r', '\n']).reverse = '\n' :: '\r' :: (natChars n).reverse by
    simp]
  rw [List.dropWhile_cons, show isWs '\n' = true from rfl]
  simp only [if_true]
  rw [List.dropWhile_cons, show isWs '\r' = true from rfl]
  simp only [if_true]
  rw [dropWhile_ws_digits (fun c hc => hd c (by simpa using hc))]
  rw [List.reverse_reverse, ltrim]
  exact dropWhile_ws_digits hd

theorem parseNatStr_natChars (n : Nat) : parseNatStr (natChars n) = some n := by
  rw [parseNatStr]
  rw [if_pos ⟨natChars_ne_nil n, List.all_eq_true.mpr (natChars_digits n)⟩]
  rw [digitsVal_natChars]

theorem newline_not_mem_contentLengthLit : '\n' ∉ contentLengthLit := by decide

/-- Reading the headers of one `request_string` frame yields the declared
length and leaves exactly the bytes after the blank line. -/
theorem readHeaders_frame (n : Nat) (t : List Char) (cl fuel : Nat) :
    readHeaders (fuel + 2)
        (contentLengthLit ++ natChars n ++ ('\r' :: '\n' :: '\r' :: '\n' :: t)) cl =
      .ok (n, t) := by
  have hnl : '\n' ∉ contentLengthLit ++ natChars n ++ ['\r'] := by
    intro hm
    rcases List.mem_append.mp hm with hm | hm
    · rcases List.mem_append.mp hm with hm | hm
      · exact newline_not_mem_contentLengthLit hm
      · have := natChars_digits n '\n' hm
        exact absurd this (by decide)
    · simp at hm
  have hline : readLine
      (contentLengthLit ++ natChars n ++ ('\r' :: '\n' :: '\r' :: '\n' :: t)) =
      ((contentLengthLit ++ natChars n ++ ['\r']) ++ ['\n'], '\r' :: '\n' :: t) := by
    rw [show contentLengthLit ++ natChars n ++ ('\r' :: '\n' :: '\r' :: '\n' :: t) =
      (contentLengthLit ++ natChars n ++ ['\r']) ++ '\n' :: ('\r' :: '\n' :: t) by simp]
    exact readLine_append _ _ hnl
  rw [readHeaders]
  rw [hline]
  simp only []
  rw [if_neg (by
    intro heq
    have := congrArg List.length heq
    simp [contentLengthLit] at this)]
  rw [show (contentLengthLit ++ natChars n ++ ['\r']) ++ ['\n'] =
    contentLengthLit ++ (natChars n ++ ['\r', '\n']) by simp]
  rw [dropLit_self]
  simp only []
  rw [trim_digits_crlf, parseNatStr_natChars]
  simp only []
  rw [readHeaders]
  rw [show readLine ('\r' :: '\n' :: t) = (['\r', '\n'], t) by
    rw [show ('\r' :: '\n' :: t : List Char) = ['\r'] ++ '\n' :: t by simp]
    exact readLine_append ['\r'] t (by decide)]
  simp

/-- Round trip of one frame through `read_response`: the helper behind
claims C3 and C5. -/
theorem read_response_frame (v : Json) (extra : List Char) (hwf : wf v = true) :
    read_response (request_string_json v ++ extra) = .ok (v, extra) := by
  have hshape : request_string_json v ++ extra =
      contentLengthLit ++ natChars (ser v).length ++
        ('\r' :: '\n' :: '\r' :: '\n' :: (ser v ++ extra)) := by
    simp [request_string_json, request_string]
  rw [hshape, read_response]
  have hlen : (contentLengthLit ++ natChars (ser v).length ++
      ('\r' :: '\n' :: '\r' :: '\n' :: (ser v ++ extra))).length + 1 =
      ((contentLengthLit ++ natChars (ser v).length ++
        ('\r' :: '\n' :: '\r' :: '\n' :: (ser v ++ extra))).length - 1) + 2 := by
    have h16 : contentLengthLit.length = 16 := by decide
    simp [h16]
    omega
  rw [hlen, readHeaders_frame]
  simp only []
  rw [if_neg (by simp)]
  rw [List.take_left, List.drop_left]
  rw [from_str_ser v hwf]

/-- C3: framing round trip — encoding a structured payload with
`request_string` (a `Content-Length` header carrying the payload's byte
length, a blank line, then the payload) and decoding the framed bytes with
`read_response` recovers exactly the payload bytes and the identical
structured value; any trailing bytes are left untouched. -/
theorem claim_C3_framing_roundtrip (v : Json) (extra : List Char)
    (hwf : wf v = true) :
    read_response (request_string_json v ++ extra) = .ok (v, extra) :=
  read_response_frame v extra hwf

/-- Witness for C3 at a JSON-RPC-shaped message. -/
theorem claim_C3_framing_roundtrip_witness :
    (wf (Json.obj [("jsonrpc".toList, Json.str "2.0".toList),
        ("id".toList, Json.num 1),
        ("method".toList, Json.str "initialize".toList)]) = true) ∧
    read_response (request_string_json
        (Json.obj [("jsonrpc".toList, Json.str "2.0".toList),
          ("id".toList, Json.num 1),
          ("method".toList, Json.str "initialize".toList)]) ++ []) =
      .ok (Json.obj [("jsonrpc".toList, Json.str "2.0".toList),
          ("id".toList, Json.num 1),
          ("method".toList, Json.str "initialize".toList)], []) :=
  ⟨by decide,
    claim_C3_framing_roundtrip
      (Json.obj [("jsonrpc".toList, Json.str "2.0".toList),
        ("id".toList, Json.num 1),
        ("method".toList, Json.str "initialize".toList)]) [] (by decide)⟩

/-- C4: a frame whose header declares more payload bytes than the stream
still holds makes `read_response` return the truncated-payload transport
error — never a truncated or garbage structured value — and every
`read_response` error propagates unchanged through
`read_response_with_id`. -/
theorem claim_C4_transport_errors :
    (∀ (input : List Char) (n : Nat) (rest : List Char),
      readHeaders (input.length + 1) input 0 = .ok (n, rest) →
      rest.length < n →
      read_response input = .error .truncatedPayload) ∧
    (∀ (e : ReadError) (input : List Char) (fuel expected : Nat),
      read_response input = .error e →
      read_response_with_id (fuel + 1) expected input = .error e) := by
  constructor
  · intro input n rest hh hlt
    rw [read_response, hh]
    simp only []
    rw [if_pos hlt]
  · intro e input fuel expected hr
    rw [read_response_with_id, hr]

/-- Witness for C4: header claims 500 bytes, the stream closes after 10. -/
theorem claim_C4_transport_errors_witness :
    readHeaders (("Content-Length: 500\r\n\r\nabcdefghij".toList).length + 1)
        "Content-Length: 500\r\n\r\nabcdefghij".toList 0 =
      .ok (500, "abcdefghij".toList) ∧
    ("abcdefghij".toList).length < 500 ∧
    read_response "Content-Length: 500\r\n\r\nabcdefghij".toList =
      .error .truncatedPayload ∧
    read_response_with_id 1 7 "Content-Length: 500\r\n\r\nabcdefghij".toList =
      .error .truncatedPayload := by
  refine ⟨rfl, by decide, ?_, ?_⟩
  · exact claim_C4_transport_errors.1 "Content-Length: 500\r\n\r\nabcdefghij".toList 500
      "abcdefghij".toList rfl (by decide)
  · exact claim_C4_transport_errors.2 .truncatedPayload
      "Content-Length: 500\r\n\r\nabcdefghij".toList 0 7
      (claim_C4_transport_errors.1 "Content-Length: 500\r\n\r\nabcdefghij".toList 500
        "abcdefghij".toList rfl (by decide))

/-- The id test of the read loop: does the decoded message carry an `id`
field equal to the awaited one? -/
def idMatches (m : Json) (expected : Nat) : Bool :=
  match jget m ['i', 'd'] with
  | some idv => as_u64 idv == some expected
  | none => false

/-- The bytes of a sequence of framed messages. -/
def framesBytes : List Json → List Char
  | [] => []
  | v :: vs => request_string_json v ++ framesBytes vs

/-- C5: `read_response_with_id` returns the first decoded message whose
`id` equals the expected id; every earlier message with a different id (or
with no id at all — a notification) is skipped without an error and the
loop keeps reading. -/
theorem claim_C5_read_until_expected_id (pre : List Json) (target : Json)
    (rest : List Char) (expected : Nat)
    (hpre : ∀ m ∈ pre, wf m = true)
    (hskip : ∀ m ∈ pre, idMatches m expected = false)
    (htar : wf target = true)
    (hid : idMatches target expected = true) :
    read_response_with_id (pre.length + 1) expected
        (framesBytes pre ++ (request_string_json target ++ rest)) =
      .ok (target, rest) := by
  induction pre with
  | nil =>
      rw [framesBytes, List.nil_append, read_response_with_id]
      rw [read_response_frame target rest htar]
      simp only []
      rw [idMatches] at hid
      rcases hj : jget target ['i', 'd'] with _ | idv
      · rw [hj] at hid
        simp only [] at hid
        exact absurd hid (by simp)
      · rw [hj] at hid
        simp only [] at hid
        simp only [beq_iff_eq] at hid
        simp only []
        rw [if_pos hid]
  | cons m pre ih =>
      rw [framesBytes, List.append_assoc, List.length_cons]
      rw [read_response_with_id]
      rw [read_response_frame m (framesBytes pre ++ (request_string_json target ++ rest))
        (hpre m (by simp))]
      have hsm := hskip m (by simp)
      rw [idMatches] at hsm
      simp only []
      rcases hj : jget m ['i', 'd'] with _ | idv
      · simp only []
        exact ih (fun x hx => hpre x (by simp [hx])) (fun x hx => hskip x (by simp [hx]))
      · rw [hj] at hsm
        simp only [] at hsm
        simp only [beq_eq_false_iff_ne] at hsm
        simp only []
        rw [if_neg hsm]
        exact ih (fun x hx => hpre x (by simp [hx])) (fun x hx => hskip x (by simp [hx]))

/-- Witness for C5: a response with the wrong id and a notification precede
the awaited response; trailing bytes are preserved. -/
theorem claim_C5_read_until_expected_id_witness :
    (∀ m ∈ [Json.obj [("id".toList, Json.num 7)],
        Json.obj [("method".toList, Json.str "note".toList)]], wf m = true) ∧
    (∀ m ∈ [Json.obj [("id".toList, Json.num 7)],
        Json.obj [("method".toList, Json.str "note".toList)]], idMatches m 42 = false) ∧
    (wf (Json.obj [("id".toList, Json.num 42)]) = true) ∧
    (idMatches (Json.obj [("id".toList, Json.num 42)]) 42 = true) ∧
    read_response_with_id 3 42
        (framesBytes [Json.obj [("id".toList, Json.num 7)],
            Json.obj [("method".toList, Json.str "note".toList)]] ++
          (request_string_json (Json.obj [("id".toList, Json.num 42)]) ++ "Z".toList)) =
      .ok (Json.obj [("id".toList, Json.num 42)], "Z".toList) :=
  ⟨by decide, by decide, by decide, by decide,
    claim_C5_read_until_expected_id
      [Json.obj [("id".toList, Json.num 7)],
        Json.obj [("method".toList, Json.str "note".toList)]]
      (Json.obj [("id".toList, Json.num 42)]) "Z".toList 42
      (by decide) (by decide) (by decide) (by decide)⟩

/-- Header lines, each terminated by a newline. -/
def joinLines : List (List Char) → List Char
  | [] => []
  | b :: bs => b ++ '\n' :: joinLines bs

theorem readHeaders_skip :
    ∀ (bodies : List (List Char)) (fuel cl : Nat) (rest : List Char),
      (∀ b ∈ bodies, ('\n' ∉ b ∧ b ≠ ['\r']) ∧
        dropLit contentLengthLit (b ++ ['\n']) = none) →
      readHeaders (bodies.length + (fuel + 1)) (joinLines bodies ++ '\r' :: '\n' :: rest)
        cl = .ok (cl, rest) := by
  intro bodies
  induction bodies with
  | nil =>
      intro fuel cl rest _
      rw [joinLines, List.nil_append, List.length_nil, Nat.zero_add, readHeaders]
      rw [show readLine ('\r' :: '\n' :: rest) = (['\r', '\n'], rest) by
        rw [show ('\r' :: '\n' :: rest : List Char) = ['\r'] ++ '\n' :: rest by simp]
        exact readLine_append ['\r'] rest (by decide)]
      simp
  | cons b bs ih =>
      intro fuel cl rest hb
      obtain ⟨⟨hnl, hne⟩, hdrop⟩ := hb b (by simp)
      rw [joinLines, List.append_assoc, List.cons_append, List.length_cons]
      rw [show bs.length + 1 + (fuel + 1) = (bs.length + (fuel + 1)) + 1 by omega]
      rw [readHeaders]
      rw [readLine_append b (joinLines bs ++ '\r' :: '\n' :: rest) hnl]
      simp only []
      rw [if_neg (by
        intro heq
        apply hne
        have heq2 : b ++ ['\n'] = ['\r'] ++ ['\n'] := by simpa using heq
        exact (List.append_left_inj _).mp heq2)]
      rw [hdrop]
      exact ih (fuel) cl rest (fun x hx => hb x (by simp [hx]))

theorem joinLines_length_ge (bodies : List (List Char)) :
    bodies.length ≤ (joinLines bodies).length := by
  induction bodies with
  | nil => simp [joinLines]
  | cons b bs ih => simp [joinLines]; omega

/-- C10: when the header block ends (blank line) without any line starting
with the exact prefix `Content-Length: `, the length stays `0`, so
`read_response` consumes zero payload bytes and fails decoding the empty
payload — it neither blocks waiting for payload nor returns a structured
value. -/
theorem claim_C10_missing_content_length (bodies : List (List Char))
    (rest : List Char)
    (hb : ∀ b ∈ bodies, ('\n' ∉ b ∧ b ≠ ['\r']) ∧
      dropLit contentLengthLit (b ++ ['\n']) = none) :
    readHeaders ((joinLines bodies ++ '\r' :: '\n' :: rest).length + 1)
        (joinLines bodies ++ '\r' :: '\n' :: rest) 0 = .ok (0, rest) ∧
    read_response (joinLines bodies ++ '\r' :: '\n' :: rest) =
      .error .decodeError := by
  have hlen : bodies.length ≤ (joinLines bodies ++ '\r' :: '\n' :: rest).length := by
    have := joinLines_length_ge bodies
    simp
    omega
  have hfuel : (joinLines bodies ++ '\r' :: '\n' :: rest).length + 1 =
      bodies.length +
        (((joinLines bodies ++ '\r' :: '\n' :: rest).length - bodies.length) + 1) := by
    omega
  have hh : readHeaders ((joinLines bodies ++ '\r' :: '\n' :: rest).length + 1)
      (joinLines bodies ++ '\r' :: '\n' :: rest) 0 = .ok (0, rest) := by
    rw [hfuel]
    exact readHeaders_skip bodies _ 0 rest hb
  refine ⟨hh, ?_⟩
  rw [read_response, hh]
  simp only []
  rw [if_neg (by omega)]
  rw [List.take_zero]
  rw [show from_str [] = none from rfl]

/-- Witness for C10: a lowercase `content-length` header is not matched (the
prefix test is case-sensitive), so the blank line ends the headers with
length 0 and the read fails decoding an empty payload. -/
theorem claim_C10_missing_content_length_witness :
    (∀ b ∈ ["content-length: 5\r".toList], ('\n' ∉ b ∧ b ≠ ['\r']) ∧
      dropLit contentLengthLit (b ++ ['\n']) = none) ∧
    (readHeaders ((joinLines ["content-length: 5\r".toList] ++
          '\r' :: '\n' :: "hello".toList).length + 1)
        (joinLines ["content-length: 5\r".toList] ++ '\r' :: '\n' :: "hello".toList) 0 =
      .ok (0, "hello".toList) ∧
    read_response (joinLines ["content-length: 5\r".toList] ++
        '\r' :: '\n' :: "hello".toList) = .error .decodeError) :=
  ⟨by decide,
    claim_C10_missing_content_length ["content-length: 5\r".toList] "hello".toList
      (by decide)⟩

/-!
## Request ids and teardown (`src/lsp.rs`)
-/

/-- The request-id state of `LspServer`: the `next_id: u64` field. -/
structure LspSession where
  next_id : Nat

/-- `2^64`: the modulus of the `u64` counter (wrap-around made explicit). -/
def U64_MOD : Nat := 2 ^ 64

/-- `LspServer::send_request` (`src/lsp.rs`): hand out the current id and
increment the counter. -/
def send_request (s : LspSession) : Nat × LspSession :=
  (s.next_id, ⟨(s.next_id + 1) % U64_MOD⟩)

/-- The `next_id: 1` initialization performed by `LspServer::start`. -/
def startSession : LspSession := ⟨1⟩

/-- The ids assigned by `k` consecutive `send_request` calls. -/
def assignedIds : Nat → LspSession → List Nat
  | 0, _ => []
  | k + 1, s => (send_request s).1 :: assignedIds k (send_request s).2

theorem U64_MOD_eq : U64_MOD = 18446744073709551616 := by norm_num [U64_MOD]

theorem assignedIds_range : ∀ (k n : Nat), n + k ≤ U64_MOD →
    assignedIds k ⟨n⟩ = List.range' n k := by
  intro k
  induction k with
  | zero => intro n _; rfl
  | succ k ih =>
      intro n hn
      rw [assignedIds]
      simp only [send_request]
      cases k with
      | zero => rfl
      | succ k2 =>
          have hlt : n + 1 < U64_MOD := by omega
          rw [Nat.mod_eq_of_lt hlt]
          rw [ih (n + 1) (by omega)]
          rw [List.range'_succ n (k2 + 1) 1]

/-- C2: within one session (fewer than `2^64` requests — the only lifetimes
a `u64` counter can see), the ids assigned by `send_request` are exactly
`1, 2, …, k`: strictly increasing, hence an id never repeats and no two
outstanding requests can share one. -/
theorem claim_C2_id_monotonic (k : Nat) (hk : k ≤ U64_MOD - 1) :
    assignedIds k startSession = List.range' 1 k ∧
    (assignedIds k startSession).Pairwise (· < ·) ∧
    (assignedIds k startSession).Nodup := by
  have hmod := U64_MOD_eq
  have h := assignedIds_range k 1 (by omega)
  rw [show startSession = (⟨1⟩ : LspSession) from rfl, h]
  refine ⟨rfl, List.pairwise_lt_range' 1 k, ?_⟩
  exact (List.pairwise_lt_range' 1 k).imp (fun hlt => Nat.ne_of_lt hlt)

/-- Witness for C2 at three requests: ids 1, 2, 3. -/
theorem claim_C2_id_monotonic_witness :
    3 ≤ U64_MOD - 1 ∧
    (assignedIds 3 startSession = List.range' 1 3 ∧
      (assignedIds 3 startSession).Pairwise (· < ·) ∧
      (assignedIds 3 startSession).Nodup) :=
  ⟨by norm_num [U64_MOD], claim_C2_id_monotonic 3 (by norm_num [U64_MOD])⟩

/-- Process lifecycle states of the spawned LSP server child process. -/
inductive ProcState where
  | running
  | zombie
  | reaped
deriving DecidableEq

/-- The error `std::process::Child::kill` returns on a reaped child. -/
inductive KillError where
  | invalidInput
deriving DecidableEq

/-- Modelled from the spec: `std::process::Child::kill` (std is not part of
the repository).  Sending SIGKILL succeeds on a live process and on one that
exited but was not reaped yet (a zombie still has a pid); once the child has
been reaped by `wait`, kill fails with `InvalidInput`
("invalid argument: can't kill an exited process"). -/
def child_kill : ProcState → Except KillError ProcState
  | .running => .ok .zombie
  | .zombie => .ok .zombie
  | .reaped => .error .invalidInput

/-- Modelled from the spec: `std::process::Child::wait` reaps the child and
caches the exit status; on an already-reaped child it returns the cached
status, leaving the state reaped. -/
def child_wait : ProcState → ProcState
  | _ => .reaped

/-- `LspServer::stop` (`src/lsp.rs`): `kill`, then on success `wait` (the
exit status is only logged) and return `Ok`; a kill failure is returned as
the error. -/
def stop (p : ProcState) : Except KillError ProcState :=
  match child_kill p with
  | .ok p1 => .ok (child_wait p1)
  | .error e => .error e

/-- C6 as stated is false on the code: a first `stop` kills and reaps the
process, and a second `stop` on the now-reaped process returns the
`InvalidInput` error from `kill` — not success. -/
theorem claim_C6_counterexample :
    stop .running = .ok .reaped ∧ stop .reaped = .error .invalidInput :=
  ⟨rfl, rfl⟩

/-- C6 amended: `stop` always performs the kill; killing a process that has
already exited but was not reaped succeeds (and `stop` returns success),
but `stop` is not idempotent — invoked again after a successful stop it
fails with `kill`'s `InvalidInput` error. -/
theorem claim_C6_amended :
    stop .running = .ok .reaped ∧
    stop .zombie = .ok .reaped ∧
    stop .reaped = .error .invalidInput :=
  ⟨rfl, rfl, rfl⟩

end TSLE
